import Mathlib

/-!
Shallow embedding of `src/control/control.ino` (ps2-remote).

The sketch keeps a table `ir_map` of learned IR codes, each bound to an
action (`reset` or `power_off`).  Codes are C `long`s (32-bit patterns on
the AVR target); we model a code as a `Nat` holding the bit pattern, with
`< 2 ^ 32` hypotheses where the 32-bit width of the C type matters.
EEPROM is modelled as a byte store `Nat → Nat` together with its capacity
`E` (the value of `EEPROM.length()`); faithful writes always store values
below 256, since the C code truncates through a `byte` local.
-/

namespace PS2

/-- `sizeof(long)` on the AVR target of the sketch. -/
def sizeofLong : Nat := 4

/-- Actions bound in `ir_map` (the function pointers `reset` and
`power_off`; the terminating `NULL` sentinel of the C array is represented
by the end of the Lean list). -/
inductive Action where
  | reset
  | power_off
deriving DecidableEq

/-- One entry of `ir_map`: `{ long ir_code; void (*fn)(void); }`. -/
structure Slot where
  ir_code : Nat
  fn : Action
deriving DecidableEq

/-- The compiled-in initializer of `ir_map`:
`{{0, reset}, {0, power_off}, {0, NULL}}` — two active slots, codes 0. -/
def ir_map_init : List Slot := [⟨0, Action.reset⟩, ⟨0, Action.power_off⟩]

/-- The byte-store loop of `set_value`:
`for (i = 0; i < sizeof(long) && i + index*sizeof(long) < EEPROM.length(); ++i)`
writing `byte n = (val & (0xffL << (i*8))) >> (i*8)` to
`EEPROM.write(i + index*sizeof(long), n)`.  `i` is the loop counter; the
extra `fuel` argument (always called with `fuel = sizeofLong - i`) bounds
the remaining iterations only to make the recursion structural — the
loop guard `i < sizeofLong` exits at exactly the same point, so the fuel
never runs out first. -/
def set_value_go (index val E : Nat) : Nat → Nat → (Nat → Nat) → (Nat → Nat)
  | _, 0, ee => ee
  | i, fuel+1, ee =>
    if i < sizeofLong ∧ i + index * sizeofLong < E then
      set_value_go index val E (i+1) fuel
        (fun a => if a = i + index * sizeofLong
                  then (val &&& (0xff <<< (8 * i))) >>> (8 * i) else ee a)
    else ee

/-- `set_value(index, val)`: store `val` little-endian at slot `index` of
the EEPROM (capacity `E`), returning the updated byte store. -/
def set_value (index val E : Nat) (ee : Nat → Nat) : Nat → Nat :=
  set_value_go index val E 0 sizeofLong ee

/-- The per-slot read loop of `get_values`:
`for (i = 0; i < sizeof(long) && i + index*sizeof(long) < EEPROM.length(); ++i)`
accumulating `val |= ((long)EEPROM.read(i + index*sizeof(long)) << (i*8))`.
Fuel bounds the recursion exactly as in `set_value_go`. -/
def get_value_go (index E : Nat) (ee : Nat → Nat) : Nat → Nat → Nat → Nat
  | _, 0, val => val
  | i, fuel+1, val =>
    if i < sizeofLong ∧ i + index * sizeofLong < E then
      get_value_go index E ee (i+1) fuel
        (val ||| (ee (i + index * sizeofLong) <<< (8 * i)))
    else val

/-- Read the code of one slot back from the EEPROM (the body of the
`get_values` loop for a single `index`; the spec's `load(slot)`). -/
def load (index E : Nat) (ee : Nat → Nat) : Nat :=
  get_value_go index E ee 0 sizeofLong 0

/-- `get_values()`: rebuild the in-memory `ir_map` from EEPROM, one slot
per active entry (the C loop runs until the `NULL`-`fn` sentinel; the
argument list holds the active entries, whose `fn` fields it keeps). -/
def get_values_go (E : Nat) (ee : Nat → Nat) : Nat → List Slot → List Slot
  | _, [] => []
  | idx, sl :: rest => ⟨load idx E ee, sl.fn⟩ :: get_values_go E ee (idx+1) rest

/-- `get_values()` starting from slot 0. -/
def get_values (E : Nat) (ee : Nat → Nat) (m : List Slot) : List Slot :=
  get_values_go E ee 0 m

/-- `get_code(&results)`: returns `ptr->value` (the 32-bit `value` field
of `decode_results`) unchanged. -/
def get_code (v : Nat) : Nat := v

/-- The `DEBUG` capacity check in `setup()`:
`sizeof(ir_map)/sizeof(ir_map[0]) - 1 > EEPROM.length() * sizeof(long)`.
`numCodes` is the number of active entries (array length minus the
sentinel).  Returns whether the warning is printed. -/
def eeprom_warning (numCodes E : Nat) : Bool := decide (numCodes > E * sizeofLong)

/-- Number of active codes of a table (the C expression
`sizeof(ir_map)/sizeof(ir_map[0]) - 1`). -/
def num_codes (m : List Slot) : Nat := m.length

/-- Events emitted towards the actuator: `press_button(down)` calls and
`delay(ms)` sleeps. -/
inductive Ev where
  | press (down : Bool)
  | delay (ms : Nat)
deriving DecidableEq

/-- `reset()`: quick press — `press_button(true); delay(100); press_button(false);`. -/
def reset : List Ev := [Ev.press true, Ev.delay 100, Ev.press false]

/-- `power_off()`: press and hold — `press_button(true); delay(2500); press_button(false);`. -/
def power_off : List Ev := [Ev.press true, Ev.delay 2500, Ev.press false]

/-- Event trace of invoking the function pointer of a slot. -/
def run_action : Action → List Ev
  | Action.reset => reset
  | Action.power_off => power_off

/-- Actuator state transition: `press_button(d)` drives the line to `d`
(writes `0xff * d` to the potentiometer wiper); `delay` leaves it alone. -/
def actuate (st : Bool) : Ev → Bool
  | Ev.press d => d
  | Ev.delay _ => st

/-- The press events of a trace, in order. -/
def presses (t : List Ev) : List Bool :=
  t.filterMap fun e => match e with | Ev.press d => some d | Ev.delay _ => none

/-- The match loop of `loop()`:
`for (index = 0; ir_map[index].fn != NULL; index++) if (code == ir_map[index].ir_code) ir_map[index].fn();`
— returns the invocations (slot index, bound action) in scan order.
Note the loop has no `break`: every matching slot fires. -/
def dispatch_go (code : Nat) : Nat → List Slot → List (Nat × Action)
  | _, [] => []
  | idx, sl :: rest =>
    (if sl.ir_code = code then [(idx, sl.fn)] else []) ++ dispatch_go code (idx+1) rest

/-- Invocations performed by `loop()` for a received `code`. -/
def dispatch (m : List Slot) (code : Nat) : List (Nat × Action) :=
  dispatch_go code 0 m

/-- The mutable globals of the sketch: the in-memory `ir_map` and the
EEPROM contents. -/
structure MachState where
  irMap : List Slot
  eeprom : Nat → Nat

/-- `set_value` as a transformer of the machine state: the C function
writes only EEPROM (it never touches `ir_map`). -/
def set_value_m (index val E : Nat) (st : MachState) : MachState :=
  ⟨st.irMap, set_value index val E st.eeprom⟩

/-- `update_codes()`: for each active slot in ascending order, block until
the decoder yields a value (`stream idx` is the value of the `idx`-th
successful blocking decode), store it in `ir_map[idx].ir_code` and in
EEPROM via `set_value`. -/
def update_codes_go (E : Nat) (stream : Nat → Nat) :
    Nat → List Slot → (Nat → Nat) → List Slot × (Nat → Nat)
  | _, [], ee => ([], ee)
  | idx, sl :: rest, ee =>
    let val := get_code (stream idx)
    let r := update_codes_go E stream (idx+1) rest (set_value idx val E ee)
    (⟨val, sl.fn⟩ :: r.1, r.2)

/-- `update_codes()` on the machine state. -/
def update_codes (E : Nat) (stream : Nat → Nat) (st : MachState) : MachState :=
  ⟨(update_codes_go E stream 0 st.irMap st.eeprom).1,
   (update_codes_go E stream 0 st.irMap st.eeprom).2⟩

/-- One iteration of the `loop()` decode branch (learn button not
pressed, `irrecv.decode` returned a result with value `v`): the emitted
actuator events and the resulting machine state.  The branch reads
`ir_map` and calls the matched slots, none of which writes `ir_map` or
EEPROM, so the state is returned unchanged. -/
def loop_iter (st : MachState) (v : Nat) : List Ev × MachState :=
  ((dispatch st.irMap (get_code v)).flatMap (fun p => run_action p.2), st)

/-- Shifting a byte mask up, masking and shifting back extracts the byte:
the write expression of `set_value` equals the plain byte of the value. -/
theorem and_shl_shr (v k : Nat) : (v &&& (0xff <<< k)) >>> k = (v >>> k) &&& 0xff := by
  apply Nat.eq_of_testBit_eq
  intro j
  simp only [Nat.testBit_shiftRight, Nat.testBit_and, Nat.testBit_shiftLeft]
  have h1 : k ≤ k + j := Nat.le_add_right k j
  have h2 : k + j - k = j := by omega
  simp [h1, h2]

/-- A masked byte is the value mod 256. -/
theorem and_ff_eq_mod (x : Nat) : x &&& 0xff = x % 256 := by
  have h : (0xff : Nat) = 2 ^ 8 - 1 := by norm_num
  rw [h, Nat.and_pow_two_sub_one_eq_mod]

/-- Pointwise characterization of the `set_value` loop from any starting
counter `i` with `fuel` iterations of budget left: exactly the in-range,
in-capacity byte offsets of the slot receive the little-endian bytes of
`val`; every other address is untouched. -/
theorem set_value_go_apply (index val E : Nat) : ∀ fuel i ee a,
    set_value_go index val E i fuel ee a =
      if i + index * sizeofLong ≤ a ∧
         a < min (i + fuel) sizeofLong + index * sizeofLong ∧ a < E then
        (val >>> (8 * (a - index * sizeofLong))) % 256
      else ee a := by
  intro fuel
  induction fuel with
  | zero =>
    intro i ee a
    simp only [set_value_go]
    rw [if_neg]
    simp only [sizeofLong]
    omega
  | succ fuel ih =>
    intro i ee a
    simp only [set_value_go]
    by_cases hc : i < sizeofLong ∧ i + index * sizeofLong < E
    · rw [if_pos hc, ih]
      by_cases hr : (i + 1) + index * sizeofLong ≤ a ∧
          a < min ((i + 1) + fuel) sizeofLong + index * sizeofLong ∧ a < E
      · rw [if_pos hr, if_pos]
        simp only [sizeofLong] at *
        omega
      · rw [if_neg hr]
        by_cases ha : a = i + index * sizeofLong
        · rw [if_pos ha, if_pos]
          · rw [and_shl_shr, and_ff_eq_mod, ha, Nat.add_sub_cancel]
          · simp only [sizeofLong] at *
            omega
        · rw [if_neg ha, if_neg]
          simp only [sizeofLong] at *
          omega
    · rw [if_neg hc, if_neg]
      simp only [sizeofLong] at *
      omega

/-- Pointwise characterization of `set_value`. -/
theorem set_value_apply (index val E : Nat) (ee : Nat → Nat) (a : Nat) :
    set_value index val E ee a =
      if index * sizeofLong ≤ a ∧ a < index * sizeofLong + sizeofLong ∧ a < E then
        (val >>> (8 * (a - index * sizeofLong))) % 256
      else ee a := by
  rw [set_value, set_value_go_apply]
  have h : min (0 + sizeofLong) sizeofLong = sizeofLong := by omega
  rw [h]
  by_cases hc : index * sizeofLong ≤ a ∧ a < index * sizeofLong + sizeofLong ∧ a < E
  · rw [if_pos, if_pos hc]
    omega
  · rw [if_neg, if_neg hc]
    omega

/-- Prepending the low byte below an already-shifted tail of an
or-accumulation is the same as shifting the byte-extended value: the
algebraic step of the `get_values` reassembly. -/
theorem byte_cons (x P i : Nat) :
    ((x % 256) <<< (8*i)) ||| (((x >>> 8) % P) <<< (8*i+8)) =
      (x % 256 + 256 * ((x >>> 8) % P)) <<< (8*i) := by
  rw [Nat.shiftLeft_eq, Nat.shiftLeft_eq, Nat.shiftLeft_eq]
  have hb : (x % 256) * 2 ^ (8*i) < 2 ^ (8*i+8) := by
    have h2 : 0 < (2:Nat) ^ (8*i) := pow_pos (by norm_num) _
    have hx : x % 256 < 256 := Nat.mod_lt _ (by norm_num)
    have he : (2:Nat) ^ (8*i+8) = 256 * 2 ^ (8*i) := by
      rw [pow_add]; ring_nf
    rw [he]
    exact (mul_lt_mul_right h2).mpr hx
  have key := Nat.mul_add_lt_is_or hb ((x >>> 8) % P)
  rw [Nat.lor_comm, Nat.mul_comm ((x >>> 8) % P) (2 ^ (8*i+8)), ← key]
  rw [pow_add]
  ring

/-- The `get_values` read loop, run over a slot whose bytes hold the
little-endian representation of `c`, reassembles the remaining bytes:
from counter `i` with `fuel = sizeofLong - i`, it ors the top
`8*fuel` bits of `c >>> (8*i)` onto the accumulator at position `8*i`. -/
theorem get_loop_reads (s E c : Nat) (ee : Nat → Nat)
    (hee : ∀ j, j < sizeofLong → ee (j + s * sizeofLong) = (c >>> (8*j)) % 256)
    (hcap : (s+1) * sizeofLong ≤ E) :
    ∀ fuel i val, i + fuel = sizeofLong →
      get_value_go s E ee i fuel val =
        val ||| (((c >>> (8*i)) % 2 ^ (8*fuel)) <<< (8*i)) := by
  intro fuel
  induction fuel with
  | zero =>
    intro i val hi
    simp [get_value_go, Nat.mod_one]
  | succ fuel ih =>
    intro i val hi
    simp only [get_value_go]
    rw [if_pos (by simp only [sizeofLong] at *; omega)]
    rw [ih (i+1) _ (by omega)]
    rw [hee i (by omega)]
    rw [Nat.lor_assoc]
    congr 1
    have h8 : 8 * (i+1) = 8*i + 8 := by ring
    rw [h8, Nat.shiftRight_add, byte_cons]
    congr 1
    have hdiv : c >>> (8*i) >>> 8 = c >>> (8*i) / 256 := by
      rw [Nat.shiftRight_eq_div_pow]
    have hpow : (2:Nat) ^ (8 * (fuel+1)) = 256 * 2 ^ (8*fuel) := by
      have : 8 * (fuel+1) = 8 + 8*fuel := by ring
      rw [this, pow_add]; norm_num
    rw [hdiv, hpow, Nat.mod_mul]

/-- Round-trip: storing a 32-bit code with `set_value` and reading the
slot back with the `get_values` loop returns the code exactly, whenever
the slot's whole byte range lies inside the EEPROM capacity. -/
theorem load_set_value (s c E : Nat) (ee : Nat → Nat)
    (hcap : (s+1) * sizeofLong ≤ E) (hc : c < 2 ^ 32) :
    load s E (set_value s c E ee) = c := by
  have hee : ∀ j, j < sizeofLong →
      set_value s c E ee (j + s * sizeofLong) = (c >>> (8*j)) % 256 := by
    intro j hj
    rw [set_value_apply, if_pos]
    · rw [Nat.add_sub_cancel]
    · simp only [sizeofLong] at *
      omega
  rw [load, get_loop_reads s E c _ hee hcap sizeofLong 0 0 (by omega)]
  simp only [sizeofLong]
  norm_num
  exact lt_of_lt_of_eq hc (by norm_num)

/-- The read loop only looks at the slot's own in-capacity byte range:
two stores agreeing there give the same value. -/
theorem get_value_go_congr (s E : Nat) (ee ee2 : Nat → Nat)
    (h : ∀ j, j < sizeofLong → j + s * sizeofLong < E →
      ee (j + s * sizeofLong) = ee2 (j + s * sizeofLong)) :
    ∀ fuel i val, get_value_go s E ee i fuel val = get_value_go s E ee2 i fuel val := by
  intro fuel
  induction fuel with
  | zero => intro i val; rfl
  | succ fuel ih =>
    intro i val
    simp only [get_value_go]
    by_cases hc : i < sizeofLong ∧ i + s * sizeofLong < E
    · rw [if_pos hc, if_pos hc, h i hc.1 hc.2, ih]
    · rw [if_neg hc, if_neg hc]

/-- `load` only depends on the slot's own in-capacity bytes. -/
theorem load_congr (s E : Nat) (ee ee2 : Nat → Nat)
    (h : ∀ j, j < sizeofLong → j + s * sizeofLong < E →
      ee (j + s * sizeofLong) = ee2 (j + s * sizeofLong)) :
    load s E ee = load s E ee2 := by
  rw [load, load, get_value_go_congr s E ee ee2 h]

/-- `set_value` at a different slot index leaves a slot's `load` alone:
the byte ranges of distinct slots are disjoint. -/
theorem load_set_value_other (s j c E : Nat) (ee : Nat → Nat) (hj : j ≠ s) :
    load s E (set_value j c E ee) = load s E ee := by
  apply load_congr
  intro i hi _
  rw [set_value_apply, if_neg]
  simp only [sizeofLong] at *
  omega

/-- The in-memory table after the `update_codes` loop: slot `idx + k`
holds the `(idx + k)`-th decoded value; the bound actions are kept. -/
theorem update_go_fst (E : Nat) (stream : Nat → Nat) :
    ∀ (m : List Slot) (idx : Nat) (ee : Nat → Nat) (k : Nat),
      ((update_codes_go E stream idx m ee).1)[k]? =
        (m[k]?).map (fun sl => ⟨get_code (stream (idx + k)), sl.fn⟩) := by
  intro m
  induction m with
  | nil => intro idx ee k; simp [update_codes_go]
  | cons sl rest ih =>
    intro idx ee k
    cases k with
    | zero => simp [update_codes_go]
    | succ k =>
      simp only [update_codes_go, List.getElem?_cons_succ]
      rw [ih]
      have h : idx + 1 + k = idx + (k + 1) := by omega
      rw [h]

/-- EEPROM bytes below the byte range of the slots still to be learned
are not written by the rest of the `update_codes` loop. -/
theorem update_go_snd_frame (E : Nat) (stream : Nat → Nat) :
    ∀ (m : List Slot) (idx : Nat) (ee : Nat → Nat) (a : Nat),
      a < idx * sizeofLong → (update_codes_go E stream idx m ee).2 a = ee a := by
  intro m
  induction m with
  | nil => intro idx ee a _; rfl
  | cons sl rest ih =>
    intro idx ee a ha
    simp only [update_codes_go]
    rw [ih (idx+1) _ a (by simp only [sizeofLong] at *; omega)]
    rw [set_value_apply, if_neg]
    simp only [sizeofLong] at *
    omega

/-- A slot already learned before the loop resumes at `idx` keeps its
stored value: the remaining iterations write only higher byte ranges. -/
theorem update_go_load_untouched (E : Nat) (stream : Nat → Nat)
    (m : List Slot) (idx : Nat) (ee : Nat → Nat) (s : Nat) (hs : s < idx) :
    load s E (update_codes_go E stream idx m ee).2 = load s E ee := by
  apply load_congr
  intro j hj _
  apply update_go_snd_frame
  simp only [sizeofLong] at *
  omega

/-- After the `update_codes` loop, the EEPROM holds the decoded value of
every slot the loop visited, provided the slot's byte range fits. -/
theorem update_go_load (E : Nat) (stream : Nat → Nat) :
    ∀ (m : List Slot) (idx : Nat) (ee : Nat → Nat) (s : Nat),
      idx ≤ s → s < idx + m.length → (s+1) * sizeofLong ≤ E →
      stream s < 2 ^ 32 →
      load s E (update_codes_go E stream idx m ee).2 = get_code (stream s) := by
  intro m
  induction m with
  | nil =>
    intro idx ee s h1 h2 _ _
    simp at h2
    omega
  | cons sl rest ih =>
    intro idx ee s h1 h2 hcap h32
    simp only [update_codes_go]
    by_cases hs : s = idx
    · subst hs
      rw [update_go_load_untouched E stream rest (s+1) _ s (by omega)]
      exact load_set_value s (get_code (stream s)) E ee hcap h32
    · exact ih (idx+1) _ s (by omega) (by simp at h2 ⊢; omega) hcap h32

/-- `get_values` rebuilds each in-memory entry from the EEPROM: entry
`idx + k` gets `load (idx + k)`, keeping the bound action. -/
theorem get_values_go_getElem (E : Nat) (ee : Nat → Nat) :
    ∀ (m : List Slot) (idx k : Nat),
      (get_values_go E ee idx m)[k]? =
        (m[k]?).map (fun sl => ⟨load (idx + k) E ee, sl.fn⟩) := by
  intro m
  induction m with
  | nil => intro idx k; simp [get_values_go]
  | cons sl rest ih =>
    intro idx k
    cases k with
    | zero => simp [get_values_go]
    | succ k =>
      simp only [get_values_go, List.getElem?_cons_succ]
      rw [ih]
      have h : idx + 1 + k = idx + (k + 1) := by omega
      rw [h]

/-- The match loop scans all slots: its invocation list is exactly the
matching slots, numbered from the starting index, in scan order. -/
theorem dispatch_go_eq (code : Nat) :
    ∀ (m : List Slot) (idx : Nat),
      dispatch_go code idx m =
        ((m.enumFrom idx).filter (fun p => p.2.ir_code == code)).map
          (fun p => (p.1, p.2.fn)) := by
  intro m
  induction m with
  | nil => intro idx; rfl
  | cons sl rest ih =>
    intro idx
    simp only [dispatch_go, List.enumFrom, List.filter_cons]
    by_cases h : sl.ir_code = code
    · simp [h, ih]
    · simp [h, ih]

/-- A slot whose code equals the received code is invoked by the match
loop (at its scan position). -/
theorem mem_dispatch_go (code : Nat) :
    ∀ (m : List Slot) (idx k : Nat) (sl : Slot),
      m[k]? = some sl → sl.ir_code = code →
      (idx + k, sl.fn) ∈ dispatch_go code idx m := by
  intro m
  induction m with
  | nil => intro idx k sl h _; simp at h
  | cons sl0 rest ih =>
    intro idx k sl h hc
    cases k with
    | zero =>
      simp only [List.getElem?_cons_zero, Option.some_inj] at h
      subst h
      simp [dispatch_go, hc]
    | succ k =>
      simp only [List.getElem?_cons_succ] at h
      simp only [dispatch_go, List.mem_append]
      right
      have hmem := ih (idx+1) k sl h hc
      have he : idx + 1 + k = idx + (k + 1) := by omega
      rw [he] at hmem
      exact hmem

/-- If no slot matches, the match loop performs no invocation. -/
theorem dispatch_go_nil (code : Nat) :
    ∀ (m : List Slot) (idx : Nat),
      (∀ sl ∈ m, sl.ir_code ≠ code) → dispatch_go code idx m = [] := by
  intro m
  induction m with
  | nil => intro idx _; rfl
  | cons sl rest ih =>
    intro idx h
    simp only [dispatch_go]
    rw [if_neg (h sl (by simp)), ih (idx+1) (fun x hx => h x (by simp [hx]))]
    rfl

/-- `update_codes` keeps the number of slots. -/
theorem update_go_length (E : Nat) (stream : Nat → Nat) :
    ∀ (m : List Slot) (idx : Nat) (ee : Nat → Nat),
      (update_codes_go E stream idx m ee).1.length = m.length := by
  intro m
  induction m with
  | nil => intro idx ee; rfl
  | cons sl rest ih =>
    intro idx ee
    simp only [update_codes_go, List.length_cons]
    rw [ih]

/-- Claim C1, counterexample: with two slots holding the same learned
code 5, a receive of 5 invokes the power-off action of slot 1 as well —
the later matching slot also fires, and the invocation list is not just
the first match. -/
theorem C1_counterexample :
    (1, Action.power_off) ∈ dispatch [⟨5, Action.reset⟩, ⟨5, Action.power_off⟩] 5 ∧
    dispatch [⟨5, Action.reset⟩, ⟨5, Action.power_off⟩] 5 ≠ [(0, Action.reset)] := by
  decide

/-- Claim C1 (amended): in the match-and-dispatch loop, for every
received code, every slot whose learned code equals the received code has
its action invoked, in ascending scan order — the invocation list is
exactly the matching slots with their indices (the loop body has no
`break`, so no tie-break occurs). -/
theorem C1_all_matching_slots_fire (m : List Slot) (code : Nat) :
    dispatch m code =
      ((m.enum.filter (fun p => p.2.ir_code == code)).map (fun p => (p.1, p.2.fn))) := by
  rw [dispatch, dispatch_go_eq]
  rfl

/-- Claim C2: for every slot whose fixed-width byte range lies within the
EEPROM capacity and every 32-bit code, `set_value` followed by a reload
through `get_values` (power cycle: the in-memory table is rebuilt from
storage alone) yields exactly that code in `ir_map[s].ir_code`. -/
theorem C2_save_load_roundtrip (s c E : Nat) (m : List Slot) (ee : Nat → Nat)
    (hs : s < m.length) (hcap : (s+1) * sizeofLong ≤ E) (hc : c < 2 ^ 32) :
    ((get_values E (set_value s c E ee) m)[s]?).map Slot.ir_code = some c := by
  rw [get_values, get_values_go_getElem, List.getElem?_eq_getElem hs]
  simp [load_set_value s c E ee hcap hc]

/-- Claim C3 (code bug): with a 6-byte EEPROM the two active slots need 8
bytes, yet the initialization-time check (the `DEBUG` warning, whose
comment says it makes sure the codes fit) does not fire — it compares the
slot count against capacity times width instead of count times width
against capacity — and `set_value` of slot 1 silently stores only 2 of
the 4 bytes of `0xABCD1234`: offsets 6 and 7 are skipped with no error
signalled, so a reload returns the truncated `0x1234`. -/
theorem C3_capacity_check_misses_overflow :
    eeprom_warning (num_codes ir_map_init) 6 = false ∧
    num_codes ir_map_init * sizeofLong > 6 ∧
    set_value 1 0xABCD1234 6 (fun _ => 0) 4 = 0x34 ∧
    set_value 1 0xABCD1234 6 (fun _ => 0) 5 = 0x12 ∧
    set_value 1 0xABCD1234 6 (fun _ => 0) 6 = 0 ∧
    set_value 1 0xABCD1234 6 (fun _ => 0) 7 = 0 ∧
    load 1 6 (set_value 1 0xABCD1234 6 (fun _ => 0)) = 0x1234 := by
  decide

/-- Claim C4: after a completed `update_codes`, every slot's in-memory
`ir_code` equals what a `load` of that slot from EEPROM returns — the
volatile cache and the persistent store agree (for the device
configuration, where all slots fit in capacity and decoded values are
32-bit). -/
theorem C4_cache_store_agree (E : Nat) (stream : Nat → Nat) (st : MachState)
    (hcap : st.irMap.length * sizeofLong ≤ E) (h32 : ∀ k, stream k < 2 ^ 32)
    (s : Nat) (hs : s < st.irMap.length) :
    ((update_codes E stream st).irMap[s]?).map Slot.ir_code =
      some (load s E (update_codes E stream st).eeprom) := by
  have hcap2 : (s+1) * sizeofLong ≤ E := by
    simp only [sizeofLong] at *
    omega
  have h1 := update_go_fst E stream st.irMap 0 st.eeprom s
  have h2 := update_go_load E stream st.irMap 0 st.eeprom s (by omega)
    (by omega) hcap2 (h32 s)
  simp only [update_codes] at *
  rw [h1, h2, List.getElem?_eq_getElem hs]
  simp

/-- Claim C5: if learning is triggered and the decoder yields
`0xABCD1234` for slot `s`, then after `update_codes` completes that exact
value is in the in-memory table and in persistent storage for slot `s`,
and a subsequent receive of `0xABCD1234` in the dispatch loop invokes
slot `s`'s bound action. -/
theorem C5_learn_then_match (E : Nat) (stream : Nat → Nat) (st : MachState) (s : Nat)
    (hs : s < st.irMap.length) (hcap : st.irMap.length * sizeofLong ≤ E)
    (hcode : stream s = 0xABCD1234) :
    ((update_codes E stream st).irMap[s]?).map Slot.ir_code = some 0xABCD1234 ∧
    load s E (update_codes E stream st).eeprom = 0xABCD1234 ∧
    ∀ sl, st.irMap[s]? = some sl →
      (s, sl.fn) ∈ dispatch (update_codes E stream st).irMap (get_code 0xABCD1234) := by
  have hcap2 : (s+1) * sizeofLong ≤ E := by
    simp only [sizeofLong] at *
    omega
  have h32 : stream s < 2 ^ 32 := by rw [hcode]; norm_num
  have h1 := update_go_fst E stream st.irMap 0 st.eeprom s
  have h2 := update_go_load E stream st.irMap 0 st.eeprom s (by omega) (by omega) hcap2 h32
  refine ⟨?_, ?_, ?_⟩
  · simp only [update_codes]
    rw [h1, List.getElem?_eq_getElem hs]
    simp [get_code, hcode]
  · simp only [update_codes]
    rw [h2]
    simp [get_code, hcode]
  · intro sl hsl
    simp only [update_codes]
    have h3 : (update_codes_go E stream 0 st.irMap st.eeprom).1[s]? =
        some ⟨0xABCD1234, sl.fn⟩ := by
      rw [h1, hsl]
      simp [get_code, hcode]
    have := mem_dispatch_go (get_code 0xABCD1234)
      (update_codes_go E stream 0 st.irMap st.eeprom).1 0 s ⟨0xABCD1234, sl.fn⟩ h3 rfl
    simpa [dispatch] using this

/-- Claim C6: every bound action asserts the actuator exactly once and
then releases it exactly once, and leaves the line released on completion
regardless of the starting state. -/
theorem C6_actions_release :
    ∀ (a : Action) (b : Bool),
      presses (run_action a) = [true, false] ∧
      (run_action a).foldl actuate b = false := by
  intro a b
  cases a <;> cases b <;> decide

/-- Claim C7: `set_value` stores the code little-endian — byte `i` of the
slot's range holds `(c >> (8*i)) & 0xff` — and the `get_values` read loop
reconstructs the code from that layout. -/
theorem C7_little_endian_layout (s c E : Nat) (ee : Nat → Nat)
    (hcap : (s+1) * sizeofLong ≤ E) (hc : c < 2 ^ 32) :
    (∀ i, i < sizeofLong →
      set_value s c E ee (s * sizeofLong + i) = (c >>> (8*i)) &&& 0xff) ∧
    load s E (set_value s c E ee) = c := by
  constructor
  · intro i hi
    rw [set_value_apply, if_pos]
    · rw [and_ff_eq_mod, Nat.add_sub_cancel_left]
    · simp only [sizeofLong] at *
      omega
  · exact load_set_value s c E ee hcap hc

/-- Claim C8: a received code matching no slot is a no-op — no invocation
happens, no actuator event is emitted (the actuator state is whatever it
was), and the in-memory table and EEPROM are unchanged. -/
theorem C8_no_match_no_op (st : MachState) (v : Nat)
    (h : ∀ sl ∈ st.irMap, sl.ir_code ≠ get_code v) :
    (loop_iter st v).1 = [] ∧ (loop_iter st v).2 = st ∧
    ∀ b : Bool, (loop_iter st v).1.foldl actuate b = b := by
  have hd : dispatch st.irMap (get_code v) = [] := dispatch_go_nil _ _ 0 h
  refine ⟨?_, rfl, ?_⟩
  · simp [loop_iter, hd]
  · intro b
    simp [loop_iter, hd]

/-- Claim C9: `set_value(s, c)` writes only the bytes of slot `s`'s range
that lie below the EEPROM capacity; every storage byte outside that
range, and the whole in-memory table, is unchanged by the call. -/
theorem C9_set_value_frame (s c E : Nat) (st : MachState) (a : Nat)
    (h : a < s * sizeofLong ∨ s * sizeofLong + sizeofLong ≤ a ∨ E ≤ a) :
    (set_value_m s c E st).eeprom a = st.eeprom a ∧
    (set_value_m s c E st).irMap = st.irMap := by
  refine ⟨?_, rfl⟩
  simp only [set_value_m]
  rw [set_value_apply, if_neg]
  simp only [sizeofLong] at *
  omega

/-- Claim C10: one completed `update_codes` call relearns every slot, in
ascending slot order, consuming exactly one decoded IR transmission per
slot: slot `s` ends up holding the `s`-th decoded value with its bound
action unchanged, independently of the previous table contents — no
completed learn session can update one slot and skip another. -/
theorem C10_learn_relearns_every_slot (E : Nat) (stream : Nat → Nat) (st : MachState) :
    (update_codes E stream st).irMap.length = st.irMap.length ∧
    ∀ s : Nat, ((update_codes E stream st).irMap)[s]? =
      (st.irMap[s]?).map (fun sl => ⟨get_code (stream s), sl.fn⟩) := by
  constructor
  · simp only [update_codes]
    rw [update_go_length]
  · intro s
    simp only [update_codes]
    rw [update_go_fst]
    simp

/-- Witness for C2 at slot 0, code `0xABCD1234`, the 1024-byte EEPROM of
the target board, and a zeroed store. -/
theorem C2_save_load_roundtrip_witness :
    0 < ir_map_init.length ∧ (0+1) * sizeofLong ≤ 1024 ∧ 0xABCD1234 < 2 ^ 32 ∧
    ((get_values 1024 (set_value 0 0xABCD1234 1024 (fun _ => 0)) ir_map_init)[0]?).map
      Slot.ir_code = some 0xABCD1234 :=
  ⟨by decide, by decide, by norm_num,
   C2_save_load_roundtrip 0 0xABCD1234 1024 ir_map_init (fun _ => 0)
     (by decide) (by decide) (by norm_num)⟩

/-- Witness for C4: learning with a decoder that always yields 7, on the
compiled-in table and a zeroed 1024-byte EEPROM, leaves cache and store
agreeing on slot 0. -/
theorem C4_cache_store_agree_witness :
    (⟨ir_map_init, fun _ => 0⟩ : MachState).irMap.length * sizeofLong ≤ 1024 ∧
    0 < (⟨ir_map_init, fun _ => 0⟩ : MachState).irMap.length ∧
    ((update_codes 1024 (fun _ => 7) ⟨ir_map_init, fun _ => 0⟩).irMap[0]?).map
        Slot.ir_code =
      some (load 0 1024 (update_codes 1024 (fun _ => 7) ⟨ir_map_init, fun _ => 0⟩).eeprom) :=
  ⟨by decide, by decide,
   C4_cache_store_agree 1024 (fun _ => 7) ⟨ir_map_init, fun _ => 0⟩
     (by decide) (fun k => by norm_num) 0 (by decide)⟩

/-- Witness for C5: a learn session whose decoder yields `0xABCD1234`
stores it in slot 0 of cache and EEPROM, and a subsequent receive of
`0xABCD1234` invokes slot 0's reset action. -/
theorem C5_learn_then_match_witness :
    0 < (⟨ir_map_init, fun _ => 0⟩ : MachState).irMap.length ∧
    ((update_codes 1024 (fun _ => 0xABCD1234) ⟨ir_map_init, fun _ => 0⟩).irMap[0]?).map
      Slot.ir_code = some 0xABCD1234 ∧
    load 0 1024 (update_codes 1024 (fun _ => 0xABCD1234) ⟨ir_map_init, fun _ => 0⟩).eeprom =
      0xABCD1234 ∧
    (0, Action.reset) ∈
      dispatch (update_codes 1024 (fun _ => 0xABCD1234) ⟨ir_map_init, fun _ => 0⟩).irMap
        (get_code 0xABCD1234) :=
  ⟨by decide,
   (C5_learn_then_match 1024 (fun _ => 0xABCD1234) ⟨ir_map_init, fun _ => 0⟩ 0
     (by decide) (by decide) rfl).1,
   (C5_learn_then_match 1024 (fun _ => 0xABCD1234) ⟨ir_map_init, fun _ => 0⟩ 0
     (by decide) (by decide) rfl).2.1,
   (C5_learn_then_match 1024 (fun _ => 0xABCD1234) ⟨ir_map_init, fun _ => 0⟩ 0
     (by decide) (by decide) rfl).2.2 ⟨0, Action.reset⟩ (by decide)⟩

/-- Witness for C7 at slot 0, code `0xABCD1234`, byte position 1 (which
holds `0x12`), and the full reconstruction. -/
theorem C7_little_endian_layout_witness :
    (0+1) * sizeofLong ≤ 1024 ∧ 0xABCD1234 < 2 ^ 32 ∧ 1 < sizeofLong ∧
    set_value 0 0xABCD1234 1024 (fun _ => 0) (0 * sizeofLong + 1) =
      (0xABCD1234 >>> (8*1)) &&& 0xff ∧
    load 0 1024 (set_value 0 0xABCD1234 1024 (fun _ => 0)) = 0xABCD1234 :=
  ⟨by decide, by norm_num, by decide,
   (C7_little_endian_layout 0 0xABCD1234 1024 (fun _ => 0) (by decide) (by norm_num)).1
     1 (by decide),
   (C7_little_endian_layout 0 0xABCD1234 1024 (fun _ => 0) (by decide) (by norm_num)).2⟩

/-- Witness for C8: the freshly initialized table (both codes 0) matches
no receive of code 3, so that iteration emits no event and changes
nothing. -/
theorem C8_no_match_no_op_witness :
    (loop_iter ⟨ir_map_init, fun _ => 0⟩ 3).1 = [] ∧
    (loop_iter ⟨ir_map_init, fun _ => 0⟩ 3).2 = ⟨ir_map_init, fun _ => 0⟩ ∧
    (loop_iter ⟨ir_map_init, fun _ => 0⟩ 3).1.foldl actuate false = false :=
  ⟨(C8_no_match_no_op ⟨ir_map_init, fun _ => 0⟩ 3 (by decide)).1,
   (C8_no_match_no_op ⟨ir_map_init, fun _ => 0⟩ 3 (by decide)).2.1,
   (C8_no_match_no_op ⟨ir_map_init, fun _ => 0⟩ 3 (by decide)).2.2 false⟩

/-- Witness for C9: writing slot 1 on a store holding 2 everywhere leaves
byte 0 (below the slot's range) and the empty table unchanged. -/
theorem C9_set_value_frame_witness :
    ((0:Nat) < 1 * sizeofLong ∨ 1 * sizeofLong + sizeofLong ≤ 0 ∨ (100:Nat) ≤ 0) ∧
    (set_value_m 1 5 100 ⟨[], fun _ => 2⟩).eeprom 0 = 2 ∧
    (set_value_m 1 5 100 ⟨[], fun _ => 2⟩).irMap = [] :=
  ⟨by decide,
   (C9_set_value_frame 1 5 100 ⟨[], fun _ => 2⟩ 0 (by decide)).1,
   (C9_set_value_frame 1 5 100 ⟨[], fun _ => 2⟩ 0 (by decide)).2⟩

end PS2
